import Mathlib

/-
Verification of the SmartFileTransfer chunked-upload engine.

The repository ships the browser client (FileUploader components, the
FileUploadAPI fetch wrapper) together with the backend documentation and SQL
schema; the backend service code itself is not part of the source tree, so the
server-side operations below are modelled from the specification text
(session lifecycle, chunk ingest with integrity checking, merge on completion,
retry backoff policy, adaptive chunk sizing).  The client-side behaviour
(startUpload, cancelUpload in the FileUploader component) is embedded directly
from the source.
-/

namespace SmartFileTransfer

/-- A chunk payload or file content: a list of byte values. -/
abbrev Bytes := List Nat

/-- Modelled from the spec: the Content Verifier, a stateless
cryptographic digest used at both chunk level and whole-file level
(SHA-256 in the backend documentation).  The backend hashing code is not in
the source tree, so an executable stand-in digest is used; the positive
theorems rely only on the digest being a deterministic function of the bytes,
and the negative ones use concrete inputs on which this digest differs. -/
def contentHash (b : Bytes) : Nat :=
  b.foldl (fun acc x => (acc * 257 + x + 1) % (2 ^ 64)) 5381

/-- Session lifecycle states: UPLOADING is the only initial and only
non-terminal state; COMPLETED, FAILED and CANCELLED are terminal. -/
inductive Status where
  | uploading
  | completed
  | failed
  | cancelled
  deriving DecidableEq

/-- A status is terminal when it is not UPLOADING. -/
def Status.isTerminal : Status → Bool
  | .uploading => false
  | _ => true

/-- Modelled from the spec: an UploadSession together with the chunk data the
Chunk Store holds for it.  chunk data is an association list keyed by
chunk_number; chunk_presence is the set of keys with stored data. -/
structure Session where
  totalChunks : Nat
  expectedHash : Nat
  chunks : List (Nat × Bytes)
  status : Status
  deriving DecidableEq

/-- First stored payload for a chunk number, if any. -/
def lookupChunk (cs : List (Nat × Bytes)) (i : Nat) : Option Bytes :=
  match cs with
  | [] => none
  | (j, b) :: rest => if j = i then some b else lookupChunk rest i

/-- Whether chunk i is present (persisted and verified) in the session. -/
def chunkPresent (s : Session) (i : Nat) : Bool :=
  (lookupChunk s.chunks i).isSome

/-- Number of present chunk indices in [0, total_chunks). -/
def presenceCount (s : Session) : Nat :=
  ((List.range s.totalChunks).filter (chunkPresent s)).length

/-- A fresh session in UPLOADING state with no chunks. -/
def newSession (totalChunks : Nat) (expectedHash : Nat) : Session :=
  { totalChunks := totalChunks, expectedHash := expectedHash,
    chunks := [], status := .uploading }

inductive IngestResult where
  | accepted
  | invalidSession
  | chunkIntegrityError
  deriving DecidableEq

/-- Modelled from the spec: IngestChunk (Session Manager, hot path).
(1) reject if the session is not UPLOADING or chunk_number is out of
[0, total_chunks); (2) compute the content hash of the payload and compare to
claimed_hash, mismatch is rejected with ChunkIntegrityError; (3) an already
present chunk is a successful no-op; (4, 5) otherwise store the chunk and mark
the index present. -/
def ingestChunk (s : Session) (chunkNumber : Nat) (payload : Bytes)
    (claimedHash : Nat) : IngestResult × Session :=
  if s.status ≠ Status.uploading ∨ s.totalChunks ≤ chunkNumber then
    (.invalidSession, s)
  else if contentHash payload ≠ claimedHash then
    (.chunkIntegrityError, s)
  else if (lookupChunk s.chunks chunkNumber).isSome then
    (.accepted, s)
  else
    (.accepted, { s with chunks := (chunkNumber, payload) :: s.chunks })

/-- Chunks 0, 1, ..., n-1 read in ascending chunk_number order and
concatenated (the ReadOrdered discipline of the Merge Engine). -/
def readOrdered (cs : List (Nat × Bytes)) : Nat → Bytes
  | 0 => []
  | n + 1 => readOrdered cs n ++ (lookupChunk cs n).getD []

/-- The merged concatenation of all chunks of a session, ascending order. -/
def mergeBytes (s : Session) : Bytes :=
  readOrdered s.chunks s.totalChunks

inductive CompleteResult where
  | success (finalBytes : Bytes)
  | hashMismatchProvided
  | incomplete
  | hashMismatchFinal
  | invalidSession
  deriving DecidableEq

/-- Whether a Complete call succeeded. -/
def CompleteResult.isSuccess : CompleteResult → Bool
  | .success _ => true
  | _ => false

/-- Modelled from the spec: Complete (Session Manager + Merge Engine).
Fails HashMismatch when the provided hash disagrees with the stored
expected_hash, or Incomplete when chunks are missing; otherwise merges the
chunks in ascending order, and publishes with status COMPLETED (deleting chunk
data only after publication) exactly when the merged content hashes to
expected_hash; on a final hash mismatch the session becomes FAILED and the
chunk data is deliberately retained. -/
def completeUpload (s : Session) (providedHash : Nat) :
    CompleteResult × Session :=
  if s.status ≠ Status.uploading then
    (.invalidSession, s)
  else if providedHash ≠ s.expectedHash then
    (.hashMismatchProvided, s)
  else if presenceCount s ≠ s.totalChunks then
    (.incomplete, s)
  else if contentHash (mergeBytes s) = s.expectedHash then
    (.success (mergeBytes s), { s with status := .completed, chunks := [] })
  else
    (.hashMismatchFinal, { s with status := .failed })

inductive StartResult where
  | created
  | alreadyExists
  | invalidArgument
  deriving DecidableEq

/-- Sessions registry keyed by file_id. -/
def lookupSession (reg : List (String × Session)) (fid : String) :
    Option Session :=
  match reg with
  | [] => none
  | (g, s) :: rest => if g = fid then some s else lookupSession rest fid

/-- Modelled from the spec: StartSession.  Fails InvalidArgument when
total_chunks < 1 or declared_size < 0, and AlreadyExists when the file_id is
reused by a non-terminal session; the AlreadyExists behaviour also matches the
UNIQUE(file_id) constraint of src/backend/database_schema.sql and the client
in src/unnamed/part_003, which treats an already-exists response from
/upload/start as an error and retries with a fresh file_id.  (The further
spec sentence promising idempotent return of a still-UPLOADING session
conflicts with all of these; see the theorems below.) -/
def startUploadServer (reg : List (String × Session)) (fid : String)
    (totalChunks : Nat) (declaredSize : Int) (expectedHash : Nat) :
    StartResult × List (String × Session) :=
  if totalChunks < 1 ∨ declaredSize < 0 then
    (.invalidArgument, reg)
  else
    match lookupSession reg fid with
    | some s =>
      if s.status.isTerminal then
        (.created, (fid, newSession totalChunks expectedHash) :: reg)
      else
        (.alreadyExists, reg)
    | none => (.created, (fid, newSession totalChunks expectedHash) :: reg)

/-- Modelled from the spec: the Retry Coordinator backoff schedule,
exponential growth from a configured base (2 to the attempt power, per the
backend documentation) capped at a hard maximum. -/
def backoffDelay (base cap : Nat) (attempt : Nat) : Nat :=
  min (base * 2 ^ attempt) cap

/-- Modelled from the spec: the Retry Coordinator budget; after the maximum
attempt count the caller treats the chunk as permanently failed. -/
def retryBudgetExhausted (maxAttempts attempt : Nat) : Bool :=
  decide (maxAttempts ≤ attempt)

/-- Configuration of the Network Monitor chunk-size recommendation. -/
structure NetConfig where
  minChunk : Nat
  maxChunk : Nat
  successThresholdPct : Nat
  fastThroughput : Nat

/-- Modelled from the spec: SuggestChunkSize.  When the recent success ratio
is below the threshold, halve the current suggestion down to MIN_CHUNK; when
the ratio is high and the throughput exceeds the fast threshold, grow toward
MAX_CHUNK in a smoothed halfway step; otherwise hold steady.  The ratio of
successes over samples is compared against a percentage threshold
without leaving the naturals. -/
def suggestChunkSize (cfg : NetConfig) (current successes samples
    throughput : Nat) : Nat :=
  if successes * 100 < cfg.successThresholdPct * samples then
    max (current / 2) cfg.minChunk
  else if cfg.fastThroughput < throughput then
    min (current + (cfg.maxChunk - current) / 2) cfg.maxChunk
  else
    current

/-! Client-side model, embedded from the FileUploader component
(src/unnamed/part_007).  The network is abstracted by oracles: ok1 and ok2
give the outcome of FileUploadAPI.uploadChunk for a chunk index on attempt 1
and attempt 2, completeOk the outcome of FileUploadAPI.completeUpload.
A run is recorded as the list of observable events the component emits. -/

/-- The uploadState values of the FileUploader component. -/
inductive UState where
  | idle
  | preparing
  | uploading
  | completed
  | error
  deriving DecidableEq

/-- Observable events of a client run: state changes, progress updates,
chunk upload calls (index, attempt, outcome) and the complete call. -/
inductive Ev where
  | stateEv (s : UState)
  | progressEv (p : ℚ)
  | chunkCall (i : Nat) (attempt : Nat) (ok : Bool)
  | completeCall (ok : Bool)
  deriving DecidableEq

/-- One pass of the first upload loop of startUpload (part_007 lines 76-98)
over the remaining chunk indices, threading uploadedCount and failedChunks:
attempt 1 for each index; on success bump uploadedCount and set progress to
(uploadedCount / totalChunks) * 90, on failure record the index in
failedChunks.  Returns (events, uploadedCount, failedChunks). -/
def firstPassAux (ok1 : Nat → Bool) (total : Nat) :
    List Nat → Nat → List Nat → List Ev × Nat × List Nat
  | [], cnt, failed => ([], cnt, failed)
  | i :: rest, cnt, failed =>
    if ok1 i then
      let next := firstPassAux ok1 total rest (cnt + 1) failed
      (Ev.chunkCall i 1 true ::
         Ev.progressEv ((cnt + 1 : ℚ) / total * 90) :: next.1,
       next.2)
    else
      let next := firstPassAux ok1 total rest cnt (failed ++ [i])
      (Ev.chunkCall i 1 false :: next.1, next.2)

/-- The first upload loop of startUpload: chunk indices 0, ..., n-1 in order,
starting from uploadedCount 0 and no failed chunks. -/
def firstPass (ok1 : Nat → Bool) (n : Nat) : List Ev × Nat × List Nat :=
  firstPassAux ok1 n (List.range n) 0 []

/-- Retry pass of startUpload (part_007 lines 100-126): the failed chunks are
retried once each, in order; a retry failure throws, which abandons the rest
of the list.  Returns (events, uploadedCount, aborted). -/
def retryPass (ok2 : Nat → Bool) (n : Nat) :
    Nat → List Nat → List Ev × Nat × Bool
  | cnt, [] => ([], cnt, false)
  | cnt, i :: rest =>
    if ok2 i then
      let next := retryPass ok2 n (cnt + 1) rest
      (Ev.chunkCall i 2 true ::
         Ev.progressEv ((cnt + 1 : ℚ) / n * 90) :: next.1,
       next.2.1, next.2.2)
    else
      ([Ev.chunkCall i 2 false], cnt, true)

/-- The event trace of one startUpload run (part_007 lines 36-151):
state preparing, then uploading, the two chunk passes, and then either the
error state (a retry threw, caught at line 146), or progress 95, the
complete call, and on its success progress 100 with state completed, on its
failure (caught at line 146) the error state. -/
def startUploadRun (ok1 ok2 : Nat → Bool) (completeOk : Bool) (n : Nat) :
    List Ev :=
  let fp := firstPass ok1 n
  let rp := retryPass ok2 n fp.2.1 fp.2.2
  [Ev.stateEv .preparing, Ev.stateEv .uploading] ++ fp.1 ++ rp.1 ++
    (if rp.2.2 then [Ev.stateEv .error]
     else
       [Ev.progressEv 95, Ev.completeCall completeOk] ++
         (if completeOk then [Ev.progressEv 100, Ev.stateEv .completed]
          else [Ev.stateEv .error]))

/-- Recognizer for an attempt-2 upload call of chunk i. -/
def isRetryCallOf (i : Nat) : Ev → Bool
  | .chunkCall j a _ => j == i && a == 2
  | _ => false

/-- Number of attempt-2 upload calls of chunk i in a trace. -/
def retryCount (i : Nat) (evs : List Ev) : Nat :=
  (evs.filter (isRetryCallOf i)).length

/-- Recognizer for the complete call. -/
def isCompleteCall : Ev → Bool
  | .completeCall _ => true
  | _ => false

/-- The local state of the FileUploader component that cancelUpload resets. -/
structure UploaderState where
  uploadState : UState
  progress : ℚ
  uploadedChunks : Nat
  totalChunks : Nat
  fileId : Option String
  fileName : Option String
  fileSize : Nat
  messages : List String
  deriving DecidableEq

/-- The idle state cancelUpload leaves behind. -/
def resetUploaderState : UploaderState :=
  { uploadState := .idle, progress := 0, uploadedChunks := 0,
    totalChunks := 0, fileId := none, fileName := none, fileSize := 0,
    messages := [] }

/-- cancelUpload of the FileUploader component (part_007 lines 153-172):
when a fileId is set, FileUploadAPI.cancelUpload is called and any error it
throws is caught and only logged; in every case the local state is then reset
to idle with progress 0, cleared counters, ids and messages. -/
def cancelUpload (serverCancel : Except String Unit)
    (s : UploaderState) : UploaderState :=
  match s.fileId with
  | some _ =>
    match serverCancel with
    | .ok _ => resetUploaderState
    | .error _ => resetUploaderState
  | none => resetUploaderState

/-! Helper definitions and lemmas used by several claim proofs. -/

/-- Concatenation of a list of chunk payloads. -/
def concatBytes (l : List Bytes) : Bytes := l.foldr (fun b acc => b ++ acc) []

/-- Uploading a list of pieces: for each index in order, one IngestChunk call
with the piece at that index and its correct content hash. -/
def uploadPieces (pieces : List Bytes) (order : List Nat) (s : Session) :
    Session :=
  order.foldl (fun t i =>
    (ingestChunk t i (pieces.getD i []) (contentHash (pieces.getD i []))).2) s

/-- Invariant during an upload: the session is still UPLOADING with the
declared chunk count and expected hash, and exactly the indices marked by P
hold their piece. -/
def uploadedInv (pieces : List Bytes) (E : Nat) (P : Nat → Bool)
    (s : Session) : Prop :=
  s.status = Status.uploading ∧
  s.totalChunks = pieces.length ∧
  s.expectedHash = E ∧
  ∀ i, lookupChunk s.chunks i =
    if P i = true ∧ i < pieces.length then some (pieces.getD i []) else none

theorem uploadedInv_congr (pieces : List Bytes) (E : Nat) (P Q : Nat → Bool)
    (s : Session) (hpq : ∀ i, P i = Q i) (h : uploadedInv pieces E P s) :
    uploadedInv pieces E Q s :=
  ⟨h.1, h.2.1, h.2.2.1, fun i => by rw [← hpq i]; exact h.2.2.2 i⟩

theorem ingest_step (pieces : List Bytes) (E : Nat) (P : Nat → Bool)
    (s : Session) (j : Nat) (hj : j < pieces.length)
    (h : uploadedInv pieces E P s) :
    uploadedInv pieces E (fun i => i == j || P i)
      (ingestChunk s j (pieces.getD j [])
        (contentHash (pieces.getD j []))).2 := by
  obtain ⟨h1, h2, h3, h4⟩ := h
  have hcond : ¬ (s.status ≠ Status.uploading ∨ s.totalChunks ≤ j) := by
    rw [h1, h2]
    push_neg
    exact ⟨rfl, hj⟩
  unfold ingestChunk
  rw [if_neg hcond, if_neg (by simp)]
  by_cases hp : P j = true
  · have hsome : (lookupChunk s.chunks j).isSome = true := by
      rw [h4 j, if_pos ⟨hp, hj⟩]
      rfl
    rw [if_pos hsome]
    refine ⟨h1, h2, h3, fun i => ?_⟩
    rw [h4 i]
    by_cases hij : i = j
    · subst hij
      simp [hp, hj]
    · simp [hij]
  · have hnone : lookupChunk s.chunks j = none := by
      rw [h4 j, if_neg]
      intro hcon
      exact hp hcon.1
    rw [if_neg (by rw [hnone]; simp)]
    refine ⟨h1, h2, h3, fun i => ?_⟩
    show lookupChunk ((j, pieces.getD j []) :: s.chunks) i = _
    unfold lookupChunk
    by_cases hij : j = i
    · subst hij
      simp [hj]
    · rw [if_neg hij, h4 i]
      have : (i == j) = false := by
        simp [Ne.symm hij]
      simp [this]

theorem uploadPieces_inv (pieces : List Bytes) (E : Nat) :
    ∀ (order : List Nat) (P : Nat → Bool) (s : Session),
      (∀ j ∈ order, j < pieces.length) → uploadedInv pieces E P s →
      uploadedInv pieces E (fun i => order.contains i || P i)
        (uploadPieces pieces order s)
  | [], P, s, _, h => by
    refine uploadedInv_congr pieces E P _ s (fun i => ?_) h
    simp
  | j :: rest, P, s, hord, h => by
    have hj : j < pieces.length := hord j (List.mem_cons_self _ _)
    have step := ingest_step pieces E P s j hj h
    have ih := uploadPieces_inv pieces E rest (fun i => i == j || P i) _
      (fun k hk => hord k (List.mem_cons_of_mem _ hk)) step
    refine uploadedInv_congr pieces E _ _ _ (fun i => ?_) ih
    show (rest.contains i || (i == j || P i)) = ((j :: rest).contains i || P i)
    rw [List.contains_cons]
    cases hb : (i == j) <;> cases hc : rest.contains i <;> simp [hb, hc]

theorem concatBytes_foldr (l : List Bytes) :
    ∀ init : Bytes,
      l.foldr (fun b acc => b ++ acc) init = concatBytes l ++ init := by
  induction l with
  | nil => intro init; rfl
  | cons a l ih =>
    intro init
    show a ++ l.foldr (fun b acc => b ++ acc) init = concatBytes (a :: l) ++ init
    rw [ih init]
    show a ++ (concatBytes l ++ init) = (a ++ concatBytes l) ++ init
    rw [List.append_assoc]

theorem concatBytes_append_singleton (l : List Bytes) (b : Bytes) :
    concatBytes (l ++ [b]) = concatBytes l ++ b := by
  show (l ++ [b]).foldr (fun b acc => b ++ acc) [] = _
  rw [List.foldr_append, concatBytes_foldr]
  show concatBytes l ++ (b ++ []) = concatBytes l ++ b
  rw [List.append_nil]

theorem readOrdered_concat (cs : List (Nat × Bytes)) (pieces : List Bytes)
    (h : ∀ i, i < pieces.length → lookupChunk cs i = some (pieces.getD i [])) :
    readOrdered cs pieces.length = concatBytes pieces := by
  induction pieces using List.reverseRecOn with
  | nil => rfl
  | append_singleton l b ih =>
    rw [List.length_append, List.length_singleton]
    show readOrdered cs l.length ++ (lookupChunk cs l.length).getD [] = _
    have hlast : lookupChunk cs l.length = some b := by
      have := h l.length (by simp)
      rwa [List.getD_append_right _ _ _ _ (le_refl _), Nat.sub_self] at this
    have hrest : ∀ i, i < l.length → lookupChunk cs i = some (l.getD i []) := by
      intro i hi
      have := h i (by simp; omega)
      rwa [List.getD_append _ _ _ _ hi] at this
    rw [ih hrest, hlast, concatBytes_append_singleton]
    rfl

theorem presenceCount_full (s : Session)
    (h : ∀ i, i < s.totalChunks → chunkPresent s i = true) :
    presenceCount s = s.totalChunks := by
  unfold presenceCount
  rw [List.filter_eq_self.mpr, List.length_range]
  intro a ha
  exact h a (List.mem_range.mp ha)

/-- Classification of the events of the first pass. -/
theorem firstPassAux_events (ok1 : Nat → Bool) (total : Nat) :
    ∀ (idxs : List Nat) (cnt : Nat) (failed : List Nat),
      ∀ e ∈ (firstPassAux ok1 total idxs cnt failed).1,
        (∃ i ok, e = Ev.chunkCall i 1 ok) ∨
        (∃ k : Nat, 1 ≤ k ∧ k ≤ cnt + idxs.length ∧
          e = Ev.progressEv ((k : ℚ) / total * 90))
  | [], cnt, failed => by
    intro e he
    exact absurd he (List.not_mem_nil e)
  | i :: rest, cnt, failed => by
    intro e he
    by_cases h : ok1 i
    · rw [firstPassAux, if_pos h] at he
      simp only [List.mem_cons] at he
      rcases he with he | he | he
      · exact Or.inl ⟨i, true, he⟩
      · refine Or.inr ⟨cnt + 1, by omega, by simp, ?_⟩
        rw [he]
        norm_cast
      · rcases firstPassAux_events ok1 total rest (cnt + 1) failed e he with
          h1 | ⟨k, hk1, hk2, hk3⟩
        · exact Or.inl h1
        · exact Or.inr ⟨k, hk1, by simp at hk2 ⊢; omega, hk3⟩
    · rw [firstPassAux, if_neg h] at he
      simp only [List.mem_cons] at he
      rcases he with he | he
      · exact Or.inl ⟨i, false, he⟩
      · rcases firstPassAux_events ok1 total rest cnt (failed ++ [i]) e he with
          h1 | ⟨k, hk1, hk2, hk3⟩
        · exact Or.inl h1
        · exact Or.inr ⟨k, hk1, by simp at hk2 ⊢; omega, hk3⟩

/-- The failed list after the first pass: the prior failures followed by the
indices of the remaining chunks whose attempt 1 failed. -/
theorem firstPassAux_failed (ok1 : Nat → Bool) (total : Nat) :
    ∀ (idxs : List Nat) (cnt : Nat) (failed : List Nat),
      (firstPassAux ok1 total idxs cnt failed).2.2 =
        failed ++ idxs.filter (fun i => !ok1 i)
  | [], cnt, failed => by
    simp [firstPassAux]
  | i :: rest, cnt, failed => by
    by_cases h : ok1 i
    · rw [firstPassAux, if_pos h]
      show (firstPassAux ok1 total rest (cnt + 1) failed).2.2 = _
      rw [firstPassAux_failed ok1 total rest (cnt + 1) failed]
      simp [h]
    · rw [firstPassAux, if_neg h]
      show (firstPassAux ok1 total rest cnt (failed ++ [i])).2.2 = _
      rw [firstPassAux_failed ok1 total rest cnt (failed ++ [i])]
      simp [h]

/-- The uploadedCount after the first pass. -/
theorem firstPassAux_count (ok1 : Nat → Bool) (total : Nat) :
    ∀ (idxs : List Nat) (cnt : Nat) (failed : List Nat),
      (firstPassAux ok1 total idxs cnt failed).2.1 =
        cnt + (idxs.filter ok1).length
  | [], cnt, failed => by
    simp [firstPassAux]
  | i :: rest, cnt, failed => by
    by_cases h : ok1 i
    · rw [firstPassAux, if_pos h]
      show (firstPassAux ok1 total rest (cnt + 1) failed).2.1 = _
      rw [firstPassAux_count ok1 total rest (cnt + 1) failed]
      simp [h]
      omega
    · rw [firstPassAux, if_neg h]
      show (firstPassAux ok1 total rest cnt (failed ++ [i])).2.1 = _
      rw [firstPassAux_count ok1 total rest cnt (failed ++ [i])]
      simp [h]

/-- Classification of the events of the retry pass. -/
theorem retryPass_events (ok2 : Nat → Bool) (total : Nat) :
    ∀ (l : List Nat) (cnt : Nat),
      ∀ e ∈ (retryPass ok2 total cnt l).1,
        (∃ i ok, e = Ev.chunkCall i 2 ok) ∨
        (∃ k : Nat, 1 ≤ k ∧ k ≤ cnt + l.length ∧
          e = Ev.progressEv ((k : ℚ) / total * 90))
  | [], cnt => by
    intro e he
    exact absurd he (List.not_mem_nil e)
  | i :: rest, cnt => by
    intro e he
    by_cases h : ok2 i
    · rw [retryPass, if_pos h] at he
      simp only [List.mem_cons] at he
      rcases he with he | he | he
      · exact Or.inl ⟨i, true, he⟩
      · refine Or.inr ⟨cnt + 1, by omega, by simp, ?_⟩
        rw [he]
        norm_cast
      · rcases retryPass_events ok2 total rest (cnt + 1) e he with
          h1 | ⟨k, hk1, hk2, hk3⟩
        · exact Or.inl h1
        · exact Or.inr ⟨k, hk1, by simp at hk2 ⊢; omega, hk3⟩
    · rw [retryPass, if_neg h] at he
      simp only [List.mem_cons, List.not_mem_nil, or_false] at he
      exact Or.inl ⟨i, false, he⟩

/-- The retry pass aborts exactly when some listed chunk fails its retry. -/
theorem retryPass_aborts (ok2 : Nat → Bool) (total : Nat) :
    ∀ (l : List Nat) (cnt : Nat),
      (retryPass ok2 total cnt l).2.2 = true ↔ ∃ i ∈ l, ok2 i = false
  | [], cnt => by
    simp [retryPass]
  | i :: rest, cnt => by
    by_cases h : ok2 i
    · rw [retryPass, if_pos h]
      show (retryPass ok2 total (cnt + 1) rest).2.2 = true ↔ _
      rw [retryPass_aborts ok2 total rest (cnt + 1)]
      simp [h]
    · rw [retryPass, if_neg h]
      simp [h]

theorem retryCount_append (i : Nat) (a b : List Ev) :
    retryCount i (a ++ b) = retryCount i a + retryCount i b := by
  unfold retryCount
  rw [List.filter_append, List.length_append]

theorem retryCount_cons_retry (i j : Nat) (ok : Bool) (evs : List Ev) :
    retryCount i (Ev.chunkCall j 2 ok :: evs) =
      (if i = j then 1 else 0) + retryCount i evs := by
  unfold retryCount
  by_cases h : i = j
  · subst h
    rw [if_pos rfl]
    simp [List.filter_cons, isRetryCallOf]
    omega
  · rw [if_neg h]
    have : isRetryCallOf i (Ev.chunkCall j 2 ok) = false := by
      simp [isRetryCallOf]
      intro hcon
      exact absurd hcon.symm h
    simp [List.filter_cons, this]

theorem retryCount_cons_other (i : Nat) (e : Ev) (evs : List Ev)
    (h : isRetryCallOf i e = false) :
    retryCount i (e :: evs) = retryCount i evs := by
  unfold retryCount
  simp [List.filter_cons, h]

/-- Each chunk is retried at most once in the retry pass, and chunks not in
the failed list are never retried. -/
theorem retryPass_retryCount (ok2 : Nat → Bool) (total : Nat) :
    ∀ (l : List Nat) (cnt : Nat), l.Nodup →
      ∀ i, retryCount i (retryPass ok2 total cnt l).1 ≤ 1 ∧
        (i ∉ l → retryCount i (retryPass ok2 total cnt l).1 = 0)
  | [], cnt => by
    intro _ i
    exact ⟨by simp [retryPass, retryCount],
      fun _ => by simp [retryPass, retryCount]⟩
  | j :: rest, cnt => by
    intro hnd i
    have hndr : rest.Nodup := (List.nodup_cons.mp hnd).2
    have hjr : j ∉ rest := (List.nodup_cons.mp hnd).1
    by_cases h : ok2 j
    · rw [retryPass, if_pos h]
      show retryCount i (Ev.chunkCall j 2 true :: Ev.progressEv _ ::
        (retryPass ok2 total (cnt + 1) rest).1) ≤ 1 ∧ _
      rw [retryCount_cons_retry,
        retryCount_cons_other i _ _ (by simp [isRetryCallOf])]
      by_cases hij : i = j
      · subst hij
        rw [if_pos rfl,
          (retryPass_retryCount ok2 total rest (cnt + 1) hndr i).2 hjr]
        exact ⟨by omega, fun hni => absurd (List.mem_cons_self _ _) hni⟩
      · rw [if_neg hij, Nat.zero_add]
        refine ⟨(retryPass_retryCount ok2 total rest (cnt + 1) hndr i).1,
          fun hni => ?_⟩
        refine (retryPass_retryCount ok2 total rest (cnt + 1) hndr i).2
          (fun hr => ?_)
        exact hni (List.mem_cons_of_mem _ hr)
    · rw [retryPass, if_neg h]
      show retryCount i [Ev.chunkCall j 2 false] ≤ 1 ∧ _
      rw [show (retryCount i [Ev.chunkCall j 2 false]) =
        (if i = j then 1 else 0) + retryCount i [] from
        retryCount_cons_retry i j false []]
      by_cases hij : i = j
      · subst hij
        rw [if_pos rfl]
        exact ⟨by simp [retryCount],
          fun hni => absurd (List.mem_cons_self _ _) hni⟩
      · rw [if_neg hij]
        exact ⟨by simp [retryCount], fun _ => by simp [retryCount]⟩

/-- When every listed retry succeeds, the pass does not abort and every listed
chunk is retried exactly once. -/
theorem retryPass_all_ok (ok2 : Nat → Bool) (total : Nat) :
    ∀ (l : List Nat) (cnt : Nat), l.Nodup → (∀ j ∈ l, ok2 j = true) →
      (retryPass ok2 total cnt l).2.2 = false ∧
        ∀ i ∈ l, retryCount i (retryPass ok2 total cnt l).1 = 1
  | [], cnt => by
    intro _ _
    exact ⟨rfl, fun i hi => absurd hi (List.not_mem_nil i)⟩
  | j :: rest, cnt => by
    intro hnd hok
    have hndr : rest.Nodup := (List.nodup_cons.mp hnd).2
    have hjr : j ∉ rest := (List.nodup_cons.mp hnd).1
    have hj : ok2 j = true := hok j (List.mem_cons_self _ _)
    have hokr : ∀ j ∈ rest, ok2 j = true :=
      fun k hk => hok k (List.mem_cons_of_mem _ hk)
    obtain ⟨hab, hcnt⟩ := retryPass_all_ok ok2 total rest (cnt + 1) hndr hokr
    rw [retryPass, if_pos hj]
    refine ⟨hab, fun i hi => ?_⟩
    show retryCount i (Ev.chunkCall j 2 true :: Ev.progressEv _ ::
      (retryPass ok2 total (cnt + 1) rest).1) = 1
    rw [retryCount_cons_retry,
      retryCount_cons_other i _ _ (by simp [isRetryCallOf])]
    rcases List.mem_cons.mp hi with hij | hir
    · subst hij
      rw [if_pos rfl,
        (retryPass_retryCount ok2 total rest (cnt + 1) hndr i).2 hjr]
    · have hij : i ≠ j := fun hcon => hjr (hcon ▸ hir)
      rw [if_neg hij, Nat.zero_add]
      exact hcnt i hir

theorem filter_length_add_not (l : List Nat) (p : Nat → Bool) :
    (l.filter p).length + (l.filter (fun a => !p a)).length = l.length := by
  induction l with
  | nil => rfl
  | cons a l ih => by_cases h : p a <;> simp [List.filter_cons, h] <;> omega

theorem firstPass_failed (ok1 : Nat → Bool) (n : Nat) :
    (firstPass ok1 n).2.2 = (List.range n).filter (fun i => !ok1 i) := by
  unfold firstPass
  rw [firstPassAux_failed]
  rfl

theorem firstPass_count (ok1 : Nat → Bool) (n : Nat) :
    (firstPass ok1 n).2.1 = ((List.range n).filter ok1).length := by
  unfold firstPass
  rw [firstPassAux_count]
  omega

theorem firstPass_no_retry (ok1 : Nat → Bool) (n i : Nat) :
    retryCount i (firstPass ok1 n).1 = 0 := by
  unfold retryCount
  rw [List.length_eq_zero]
  refine List.filter_eq_nil_iff.mpr (fun e he => ?_)
  rcases firstPassAux_events ok1 n (List.range n) 0 [] e he with
    ⟨j, ok, rfl⟩ | ⟨k, _, _, rfl⟩ <;> simp [isRetryCallOf]

theorem firstPass_no_complete (ok1 : Nat → Bool) (n : Nat) :
    ∀ e ∈ (firstPass ok1 n).1, isCompleteCall e = false := by
  intro e he
  rcases firstPassAux_events ok1 n (List.range n) 0 [] e he with
    ⟨j, ok, rfl⟩ | ⟨k, _, _, rfl⟩ <;> rfl

theorem retryPass_no_complete (ok2 : Nat → Bool) (total cnt : Nat)
    (l : List Nat) :
    ∀ e ∈ (retryPass ok2 total cnt l).1, isCompleteCall e = false := by
  intro e he
  rcases retryPass_events ok2 total l cnt e he with
    ⟨j, ok, rfl⟩ | ⟨k, _, _, rfl⟩ <;> rfl

theorem progress_le_90 (k total : Nat) (h : k ≤ total) :
    (k : ℚ) / total * 90 ≤ 90 := by
  rcases Nat.eq_zero_or_pos total with h0 | h0
  · have hk0 : k = 0 := by omega
    subst hk0
    norm_num
  · have ht : (0 : ℚ) < total := by exact_mod_cast h0
    have hk : (k : ℚ) ≤ total := by exact_mod_cast h
    rw [div_mul_eq_mul_div, div_le_iff₀ ht]
    nlinarith

/-! Claim theorems. -/

/-- C1 (merge round-trip): for every file split into pieces whose
concatenation is the original bytes, ingesting all pieces with their correct
chunk hashes, in any index order covering every index, and then calling
Complete with the correct whole-file hash yields success with exactly the
original bytes and transitions the session to COMPLETED. -/
theorem c1_merge_round_trip (pieces : List Bytes) (order : List Nat)
    (hcov : ∀ i, i < pieces.length → i ∈ order)
    (hord : ∀ j ∈ order, j < pieces.length) :
    (completeUpload
        (uploadPieces pieces order
          (newSession pieces.length (contentHash (concatBytes pieces))))
        (contentHash (concatBytes pieces))).1 =
      CompleteResult.success (concatBytes pieces) ∧
    ((completeUpload
        (uploadPieces pieces order
          (newSession pieces.length (contentHash (concatBytes pieces))))
        (contentHash (concatBytes pieces))).2).status = Status.completed := by
  set E := contentHash (concatBytes pieces) with hE
  have hbase : uploadedInv pieces E (fun _ => false)
      (newSession pieces.length E) := by
    refine ⟨rfl, rfl, rfl, fun i => ?_⟩
    rw [if_neg]
    · rfl
    · intro hcon
      exact Bool.false_ne_true hcon.1
  have hinv := uploadPieces_inv pieces E order (fun _ => false)
    (newSession pieces.length E) hord hbase
  obtain ⟨h1, h2, h3, h4⟩ := hinv
  set s1 := uploadPieces pieces order (newSession pieces.length E) with hs1
  have hlook : ∀ i, i < pieces.length →
      lookupChunk s1.chunks i = some (pieces.getD i []) := by
    intro i hi
    rw [h4 i, if_pos]
    refine ⟨?_, hi⟩
    show (order.contains i || false) = true
    rw [Bool.or_false]
    exact List.elem_iff.mpr (hcov i hi)
  have hmerge : mergeBytes s1 = concatBytes pieces := by
    unfold mergeBytes
    rw [h2]
    exact readOrdered_concat s1.chunks pieces hlook
  have hcount : presenceCount s1 = s1.totalChunks := by
    refine presenceCount_full s1 (fun i hi => ?_)
    unfold chunkPresent
    rw [hlook i (h2 ▸ hi)]
    rfl
  have hres : completeUpload s1 E =
      (CompleteResult.success (concatBytes pieces),
        { s1 with status := Status.completed, chunks := [] }) := by
    unfold completeUpload
    rw [if_neg (by rw [h1]; simp), if_neg (by rw [h3]; simp),
      if_neg (by rw [hcount]; simp), if_pos (by rw [hmerge, h3]), hmerge]
  rw [hres]
  exact ⟨rfl, rfl⟩

/-- Witness for C1: the file [1, 2, 3] split as [1] and [2, 3], uploaded out
of order. -/
theorem c1_merge_round_trip_witness :
    (completeUpload
        (uploadPieces [[1], [2, 3]] [1, 0]
          (newSession (List.length ([[1], [2, 3]] : List Bytes))
            (contentHash (concatBytes [[1], [2, 3]]))))
        (contentHash (concatBytes [[1], [2, 3]]))).1 =
      CompleteResult.success (concatBytes [[1], [2, 3]]) :=
  (c1_merge_round_trip [[1], [2, 3]] [1, 0] (by decide) (by decide)).1

/-- C2 (integrity gate): an IngestChunk call whose payload hash differs from
claimed_hash leaves the session (its stored chunks and its presence count)
unchanged, and, whenever the call reaches the integrity check of the ingest
algorithm (session UPLOADING, index in range), it is rejected with
ChunkIntegrityError. -/
theorem c2_integrity_gate (s : Session) (i : Nat) (payload : Bytes)
    (claimed : Nat) (h : contentHash payload ≠ claimed) :
    (ingestChunk s i payload claimed).2 = s ∧
      presenceCount (ingestChunk s i payload claimed).2 = presenceCount s ∧
      (s.status = Status.uploading → i < s.totalChunks →
        ingestChunk s i payload claimed = (.chunkIntegrityError, s)) := by
  have hmain : (ingestChunk s i payload claimed).2 = s := by
    unfold ingestChunk
    split
    · rfl
    · simp [h]
  refine ⟨hmain, by rw [hmain], ?_⟩
  intro h1 h2
  unfold ingestChunk
  rw [if_neg, if_pos h]
  simp [h1, Nat.not_le.mpr h2]

/-- Witness for C2: a chunk with a wrong claimed hash on a fresh session. -/
theorem c2_integrity_gate_witness :
    ingestChunk (newSession 2 7) 0 [1] 999 =
      (IngestResult.chunkIntegrityError, newSession 2 7) :=
  (c2_integrity_gate (newSession 2 7) 0 [1] 999 (by decide)).2.2 rfl
    (by decide)

/-- C3 counterexample: a session with every chunk present on which Complete
does not succeed, because the provided hash disagrees with the stored
expected_hash; this refutes the claim that Complete succeeds if and only if
the number of present chunks equals total_chunks. -/
theorem c3_counterexample :
    presenceCount ⟨1, contentHash [5], [(0, [5])], .uploading⟩ =
        (Session.totalChunks ⟨1, contentHash [5], [(0, [5])], .uploading⟩) ∧
      ((completeUpload ⟨1, contentHash [5], [(0, [5])], .uploading⟩
          (contentHash [5] + 1)).1).isSuccess = false := by decide

/-- C3 (amended): a Complete call on an UPLOADING session succeeds exactly
when the provided hash equals the stored expected_hash, the number of present
chunks equals total_chunks, and the merged concatenation hashes to
expected_hash; a disagreeing provided hash fails with HashMismatch, and
missing chunks (with an agreeing provided hash) fail with Incomplete. -/
theorem c3_complete_characterization (s : Session) (provided : Nat)
    (h : s.status = Status.uploading) :
    ((completeUpload s provided).1.isSuccess = true ↔
      provided = s.expectedHash ∧ presenceCount s = s.totalChunks ∧
        contentHash (mergeBytes s) = s.expectedHash) ∧
    (provided ≠ s.expectedHash →
      (completeUpload s provided).1 = .hashMismatchProvided) ∧
    (provided = s.expectedHash → presenceCount s ≠ s.totalChunks →
      (completeUpload s provided).1 = .incomplete) := by
  unfold completeUpload
  by_cases hp : provided = s.expectedHash
  · by_cases hc : presenceCount s = s.totalChunks
    · by_cases hm : contentHash (mergeBytes s) = s.expectedHash
      · simp [h, hp, hc, hm, CompleteResult.isSuccess]
      · simp [h, hp, hc, hm, CompleteResult.isSuccess]
    · simp [h, hp, hc, CompleteResult.isSuccess]
  · simp [h, hp, CompleteResult.isSuccess]

/-- Witness for C3: the HashMismatch leg at a concrete full session. -/
theorem c3_complete_characterization_witness :
    (completeUpload ⟨1, contentHash [5], [(0, [5])], .uploading⟩
        (contentHash [5] + 1)).1 = CompleteResult.hashMismatchProvided :=
  (c3_complete_characterization ⟨1, contentHash [5], [(0, [5])], .uploading⟩
      (contentHash [5] + 1) rfl).2.1 (by decide)

/-- C4 (final hash mismatch): a Complete call on a full UPLOADING session
whose merged concatenation does not hash to the stored expected_hash
transitions the session to FAILED and retains all persisted chunk data
unchanged. -/
theorem c4_final_mismatch_retains_chunks (s : Session)
    (h1 : s.status = Status.uploading)
    (h2 : presenceCount s = s.totalChunks)
    (h3 : contentHash (mergeBytes s) ≠ s.expectedHash) :
    completeUpload s s.expectedHash =
      (.hashMismatchFinal, { s with status := Status.failed }) ∧
      ((completeUpload s s.expectedHash).2).chunks = s.chunks := by
  have hmain : completeUpload s s.expectedHash =
      (.hashMismatchFinal, { s with status := Status.failed }) := by
    unfold completeUpload
    simp [h1, h2, h3]
  exact ⟨hmain, by rw [hmain]⟩

/-- Witness for C4: one stored chunk whose bytes do not match the expected
whole-file hash. -/
theorem c4_final_mismatch_retains_chunks_witness :
    ((completeUpload ⟨1, contentHash [1], [(0, [0])], .uploading⟩
        (Session.expectedHash
          ⟨1, contentHash [1], [(0, [0])], .uploading⟩)).2).chunks =
      [(0, [0])] :=
  (c4_final_mismatch_retains_chunks
      ⟨1, contentHash [1], [(0, [0])], .uploading⟩ rfl (by decide)
      (by decide)).2

/-- C5 counterexample: a StartSession call that reuses the file_id of an
existing UPLOADING session errors with AlreadyExists instead of returning the
existing session, refuting the idempotent-return half of the claim. -/
theorem c5_counterexample :
    (lookupSession [("f1", newSession 3 7)] "f1").map Session.status =
        some Status.uploading ∧
      startUploadServer [("f1", newSession 3 7)] "f1" 3 0 7 =
        (.alreadyExists, [("f1", newSession 3 7)]) := by decide

/-- C5 (amended): a StartSession call with valid arguments that reuses the
file_id of an existing non-terminal (UPLOADING) session fails with
AlreadyExists and leaves the registry unchanged; the client recovers from
this by retrying with a fresh file_id (src/unnamed/part_003). -/
theorem c5_reuse_active_id_already_exists (reg : List (String × Session))
    (fid : String) (total : Nat) (size : Int) (hash : Nat) (s : Session)
    (htot : 1 ≤ total) (hsize : 0 ≤ size)
    (hlook : lookupSession reg fid = some s)
    (hstat : s.status = Status.uploading) :
    startUploadServer reg fid total size hash = (.alreadyExists, reg) := by
  unfold startUploadServer
  rw [if_neg (by omega), hlook]
  simp [Status.isTerminal, hstat]

/-- Witness for C5 at a concrete one-session registry. -/
theorem c5_reuse_active_id_already_exists_witness :
    startUploadServer [("f1", newSession 3 7)] "f1" 4 1 9 =
      (StartResult.alreadyExists, [("f1", newSession 3 7)]) :=
  c5_reuse_active_id_already_exists [("f1", newSession 3 7)] "f1" 4 1 9
    (newSession 3 7) (by decide) (by decide) (by decide) rfl

/-- C6 (retry policy): the backoff delay grows exponentially in the attempt
number from the configured base (doubling while below the cap), never exceeds
the hard cap, reaches the cap once the uncapped value does, is monotone in
the attempt number, and the retry budget is exhausted exactly at the
configured maximum attempt count; the policy is a pure function of the
attempt number, so the server keeps no retry state. -/
theorem c6_retry_backoff_policy (base cap maxAttempts n : Nat) :
    backoffDelay base cap n ≤ cap ∧
      (base * 2 ^ (n + 1) ≤ cap →
        backoffDelay base cap (n + 1) = 2 * backoffDelay base cap n) ∧
      (cap ≤ base * 2 ^ n → backoffDelay base cap n = cap) ∧
      (∀ m, n ≤ m → backoffDelay base cap n ≤ backoffDelay base cap m) ∧
      (retryBudgetExhausted maxAttempts n = true ↔ maxAttempts ≤ n) := by
  refine ⟨min_le_right _ _, ?_, ?_, ?_, ?_⟩
  · intro h
    have hd : base * 2 ^ (n + 1) = 2 * (base * 2 ^ n) := by ring
    have h0 : base * 2 ^ n ≤ cap := by
      rw [hd] at h; omega
    unfold backoffDelay
    rw [min_eq_left h, min_eq_left h0, hd]
  · intro h
    unfold backoffDelay
    exact min_eq_right h
  · intro m hm
    unfold backoffDelay
    exact min_le_min
      (Nat.mul_le_mul_left _ (Nat.pow_le_pow_right (by norm_num) hm)) le_rfl
  · unfold retryBudgetExhausted
    simp

/-- Witness for C6: doubling step at base 1000 ms, cap 30000 ms. -/
theorem c6_retry_backoff_policy_witness :
    backoffDelay 1000 30000 2 = 2 * backoffDelay 1000 30000 1 :=
  (c6_retry_backoff_policy 1000 30000 3 1).2.1 (by norm_num)

/-- C7 (adaptive chunk size): starting from a suggestion within
[MIN_CHUNK, MAX_CHUNK], the new suggestion stays within those bounds; a low
success ratio halves the suggestion down to MIN_CHUNK, a high ratio with fast
throughput grows it toward MAX_CHUNK in a smoothed halfway step (never
shrinking it), and otherwise the suggestion is held unchanged. -/
theorem c7_suggest_chunk_size_bounds (cfg : NetConfig)
    (current successes samples throughput : Nat)
    (hmin : cfg.minChunk ≤ current) (hmax : current ≤ cfg.maxChunk) :
    cfg.minChunk ≤ suggestChunkSize cfg current successes samples throughput ∧
    suggestChunkSize cfg current successes samples throughput ≤ cfg.maxChunk ∧
    (successes * 100 < cfg.successThresholdPct * samples →
      suggestChunkSize cfg current successes samples throughput =
        max (current / 2) cfg.minChunk) ∧
    (¬ successes * 100 < cfg.successThresholdPct * samples →
      cfg.fastThroughput < throughput →
      suggestChunkSize cfg current successes samples throughput =
        min (current + (cfg.maxChunk - current) / 2) cfg.maxChunk ∧
      current ≤ suggestChunkSize cfg current successes samples throughput) ∧
    (¬ successes * 100 < cfg.successThresholdPct * samples →
      ¬ cfg.fastThroughput < throughput →
      suggestChunkSize cfg current successes samples throughput = current) := by
  by_cases h1 : successes * 100 < cfg.successThresholdPct * samples
  · have he : suggestChunkSize cfg current successes samples throughput =
        max (current / 2) cfg.minChunk := by
      unfold suggestChunkSize
      rw [if_pos h1]
    refine ⟨?_, ?_, fun _ => he, fun hcon _ => absurd h1 hcon,
      fun hcon _ => absurd h1 hcon⟩
    · rw [he]; omega
    · rw [he]; omega
  · by_cases h2 : cfg.fastThroughput < throughput
    · have he : suggestChunkSize cfg current successes samples throughput =
          min (current + (cfg.maxChunk - current) / 2) cfg.maxChunk := by
        unfold suggestChunkSize
        rw [if_neg h1, if_pos h2]
      refine ⟨?_, ?_, fun hcon => absurd hcon h1,
        fun _ _ => ⟨he, ?_⟩, fun _ hcon => absurd h2 hcon⟩
      · rw [he]; omega
      · rw [he]; omega
      · rw [he]; omega
    · have he : suggestChunkSize cfg current successes samples throughput =
          current := by
        unfold suggestChunkSize
        rw [if_neg h1, if_neg h2]
      refine ⟨?_, ?_, fun hcon => absurd hcon h1,
        fun _ hcon => absurd hcon h2, fun _ _ => he⟩
      · rw [he]; exact hmin
      · rw [he]; exact hmax

/-- Witness for C7: the halving leg at the default configuration, one success
in ten samples. -/
theorem c7_suggest_chunk_size_bounds_witness :
    suggestChunkSize ⟨262144, 2097152, 80, 1000000⟩ 1048576 1 10 0 =
      max (1048576 / 2) (NetConfig.minChunk ⟨262144, 2097152, 80, 1000000⟩) :=
  (c7_suggest_chunk_size_bounds ⟨262144, 2097152, 80, 1000000⟩ 1048576 1 10 0
      (by norm_num) (by norm_num)).2.2.1 (by norm_num)

/-- C8 counterexample: with two chunks both failing attempt 1 and chunk 0
also failing its retry, the run throws at the retry of chunk 0, so chunk 1,
whose first attempt failed, is retried zero times, refuting that every
first-attempt failure is retried exactly once. -/
theorem c8_counterexample :
    ((startUploadRun (fun _ => false) (fun i => decide (i ≠ 0)) true 2).filter
        (fun e => match e with
          | Ev.chunkCall 1 1 _ => true
          | _ => false)).length = 1 ∧
      retryCount 1
        (startUploadRun (fun _ => false) (fun i => decide (i ≠ 0)) true 2) =
        0 := by decide

/-- C8 (amended): in a startUpload run, every chunk is retried at most once;
when every retry succeeds, every chunk whose first attempt failed is retried
exactly once; and when some chunk fails both its first attempt and its retry,
the run throws: the complete call never happens and the component ends in the
error state. -/
theorem c8_retry_discipline (ok1 ok2 : Nat → Bool) (completeOk : Bool)
    (n : Nat) :
    (∀ i, retryCount i (startUploadRun ok1 ok2 completeOk n) ≤ 1) ∧
    ((∀ j, ok2 j = true) →
      ∀ i, i < n → ok1 i = false →
        retryCount i (startUploadRun ok1 ok2 completeOk n) = 1) ∧
    ((∃ i, i < n ∧ ok1 i = false ∧ ok2 i = false) →
      (startUploadRun ok1 ok2 completeOk n).filter isCompleteCall = [] ∧
      Ev.stateEv UState.error ∈ startUploadRun ok1 ok2 completeOk n) := by
  have hnd : ((firstPass ok1 n).2.2).Nodup := by
    rw [firstPass_failed]
    exact (List.nodup_range n).filter _
  have hmemfail : ∀ i, i ∈ (firstPass ok1 n).2.2 ↔
      (i < n ∧ ok1 i = false) := by
    intro i
    rw [firstPass_failed]
    simp [List.mem_filter, List.mem_range]
  have hrun : startUploadRun ok1 ok2 completeOk n =
      [Ev.stateEv .preparing, Ev.stateEv .uploading] ++ (firstPass ok1 n).1 ++
        (retryPass ok2 n (firstPass ok1 n).2.1 (firstPass ok1 n).2.2).1 ++
        (if (retryPass ok2 n (firstPass ok1 n).2.1 (firstPass ok1 n).2.2).2.2
          then [Ev.stateEv .error]
          else
            [Ev.progressEv 95, Ev.completeCall completeOk] ++
              (if completeOk then [Ev.progressEv 100, Ev.stateEv .completed]
               else [Ev.stateEv .error])) := rfl
  set rp := retryPass ok2 n (firstPass ok1 n).2.1 (firstPass ok1 n).2.2
    with hrp
  have htailrc : ∀ i, retryCount i
      (if rp.2.2 then [Ev.stateEv .error]
       else [Ev.progressEv 95, Ev.completeCall completeOk] ++
         (if completeOk then [Ev.progressEv 100, Ev.stateEv .completed]
          else [Ev.stateEv .error])) = 0 := by
    intro i
    by_cases h1 : rp.2.2 <;> by_cases h2 : completeOk <;>
      simp [h1, h2, retryCount, isRetryCallOf]
  have hdecomp : ∀ i, retryCount i (startUploadRun ok1 ok2 completeOk n) =
      retryCount i rp.1 := by
    intro i
    rw [hrun, retryCount_append, retryCount_append, retryCount_append,
      firstPass_no_retry, htailrc]
    simp [retryCount, isRetryCallOf]
  refine ⟨?_, ?_, ?_⟩
  · intro i
    rw [hdecomp]
    exact (retryPass_retryCount ok2 n (firstPass ok1 n).2.2
      (firstPass ok1 n).2.1 hnd i).1
  · intro hok i hi hfail
    rw [hdecomp]
    exact (retryPass_all_ok ok2 n (firstPass ok1 n).2.2 (firstPass ok1 n).2.1
      hnd (fun j _ => hok j)).2 i ((hmemfail i).mpr ⟨hi, hfail⟩)
  · rintro ⟨i, hi, hfail, hretry⟩
    have habort : rp.2.2 = true := by
      rw [hrp, retryPass_aborts]
      exact ⟨i, (hmemfail i).mpr ⟨hi, hfail⟩, hretry⟩
    constructor
    · rw [hrun, if_pos habort]
      refine List.filter_eq_nil_iff.mpr (fun e he => ?_)
      simp only [List.mem_append, List.mem_cons, List.not_mem_nil,
        or_false] at he
      rcases he with ((he | he) | he) | he
      · rcases he with he | he <;> simp [he, isCompleteCall]
      · simp [firstPass_no_complete ok1 n e he]
      · rw [hrp] at he
        simp [retryPass_no_complete ok2 n _ _ e he]
      · simp [he, isCompleteCall]
    · rw [hrun, if_pos habort]
      simp

/-- Witness for C8: with one chunk failing attempt 1 and succeeding on retry,
the chunk is retried exactly once. -/
theorem c8_retry_discipline_witness :
    retryCount 0 (startUploadRun (fun _ => false) (fun _ => true) true 1) =
      1 :=
  (c8_retry_discipline (fun _ => false) (fun _ => true) true 1).2.1
    (fun _ => rfl) 0 (by decide) rfl

/-- C9 (progress discipline): every progress value reported during the two
chunk-upload passes is at most 90; the completed state appears in a run only
when the complete call resolved successfully, and then the run ends with
progress 95, the successful complete call, progress 100 and the completed
state, in that order; and progress 100 appears only in runs whose complete
call succeeded. -/
theorem c9_progress_discipline (ok1 ok2 : Nat → Bool) (completeOk : Bool)
    (n : Nat) :
    (∀ p : ℚ,
      (Ev.progressEv p ∈ (firstPass ok1 n).1 ∨
        Ev.progressEv p ∈
          (retryPass ok2 n (firstPass ok1 n).2.1 (firstPass ok1 n).2.2).1) →
      p ≤ 90) ∧
    (Ev.stateEv UState.completed ∈ startUploadRun ok1 ok2 completeOk n →
      completeOk = true ∧
      ∃ es : List Ev, startUploadRun ok1 ok2 completeOk n =
        es ++ [Ev.progressEv 95, Ev.completeCall true,
               Ev.progressEv 100, Ev.stateEv UState.completed]) ∧
    (Ev.progressEv 100 ∈ startUploadRun ok1 ok2 completeOk n →
      completeOk = true ∧
      Ev.completeCall true ∈ startUploadRun ok1 ok2 completeOk n) := by
  have hsum : (firstPass ok1 n).2.1 + ((firstPass ok1 n).2.2).length = n := by
    rw [firstPass_count, firstPass_failed]
    rw [filter_length_add_not (List.range n) ok1]
    exact List.length_range n
  have hprog : ∀ p : ℚ,
      (Ev.progressEv p ∈ (firstPass ok1 n).1 ∨
        Ev.progressEv p ∈
          (retryPass ok2 n (firstPass ok1 n).2.1 (firstPass ok1 n).2.2).1) →
      p ≤ 90 := by
    rintro p (hp | hp)
    · rcases firstPassAux_events ok1 n (List.range n) 0 [] _ hp with
        ⟨j, ok, hcon⟩ | ⟨k, hk1, hk2, hk⟩
      · exact absurd hcon (by simp)
      · have hpk : p = (k : ℚ) / n * 90 := by
          injection hk with hk
        rw [hpk]
        refine progress_le_90 k n ?_
        rw [List.length_range] at hk2
        omega
    · rcases retryPass_events ok2 n (firstPass ok1 n).2.2
        (firstPass ok1 n).2.1 _ hp with
        ⟨j, ok, hcon⟩ | ⟨k, hk1, hk2, hk⟩
      · exact absurd hcon (by simp)
      · have hpk : p = (k : ℚ) / n * 90 := by
          injection hk with hk
        rw [hpk]
        refine progress_le_90 k n ?_
        omega
  have hrun : startUploadRun ok1 ok2 completeOk n =
      [Ev.stateEv .preparing, Ev.stateEv .uploading] ++ (firstPass ok1 n).1 ++
        (retryPass ok2 n (firstPass ok1 n).2.1 (firstPass ok1 n).2.2).1 ++
        (if (retryPass ok2 n (firstPass ok1 n).2.1 (firstPass ok1 n).2.2).2.2
          then [Ev.stateEv .error]
          else
            [Ev.progressEv 95, Ev.completeCall completeOk] ++
              (if completeOk then [Ev.progressEv 100, Ev.stateEv .completed]
               else [Ev.stateEv .error])) := rfl
  refine ⟨hprog, ?_, ?_⟩
  · intro hmem
    rw [hrun] at hmem
    simp only [List.mem_append, List.mem_cons, List.not_mem_nil,
      or_false] at hmem
    rcases hmem with ((hmem | hmem) | hmem) | hmem
    · rcases hmem with hmem | hmem <;> exact absurd hmem (by simp)
    · rcases firstPassAux_events ok1 n (List.range n) 0 [] _ hmem with
        ⟨j, ok, hcon⟩ | ⟨k, _, _, hcon⟩ <;> exact absurd hcon (by simp)
    · rcases retryPass_events ok2 n (firstPass ok1 n).2.2
        (firstPass ok1 n).2.1 _ hmem with
        ⟨j, ok, hcon⟩ | ⟨k, _, _, hcon⟩ <;> exact absurd hcon (by simp)
    · by_cases hab :
        (retryPass ok2 n (firstPass ok1 n).2.1 (firstPass ok1 n).2.2).2.2
      · rw [if_pos hab] at hmem
        simp at hmem
      · rw [if_neg hab] at hmem
        by_cases hco : completeOk
        · refine ⟨hco, [Ev.stateEv .preparing, Ev.stateEv .uploading] ++
            (firstPass ok1 n).1 ++
            (retryPass ok2 n (firstPass ok1 n).2.1 (firstPass ok1 n).2.2).1,
            ?_⟩
          rw [hrun, if_neg hab, if_pos hco, hco]
          simp [List.append_assoc]
        · rw [if_neg hco] at hmem
          simp at hmem
  · intro hmem
    rw [hrun] at hmem
    simp only [List.mem_append, List.mem_cons, List.not_mem_nil,
      or_false] at hmem
    rcases hmem with ((hmem | hmem) | hmem) | hmem
    · rcases hmem with hmem | hmem <;> exact absurd hmem (by simp)
    · have := hprog 100 (Or.inl hmem)
      norm_num at this
    · have := hprog 100 (Or.inr hmem)
      norm_num at this
    · by_cases hab :
        (retryPass ok2 n (firstPass ok1 n).2.1 (firstPass ok1 n).2.2).2.2
      · rw [if_pos hab] at hmem
        simp at hmem
      · rw [if_neg hab] at hmem
        by_cases hco : completeOk
        · refine ⟨hco, ?_⟩
          rw [hrun, if_neg hab, if_pos hco, hco]
          simp
        · rw [if_neg hco] at hmem
          simp at hmem

/-- Witness for C9: a one-chunk run whose complete call succeeds ends in the
completed state right after the successful complete call. -/
theorem c9_progress_discipline_witness :
    true = true ∧
      ∃ es : List Ev, startUploadRun (fun _ => true) (fun _ => true) true 1 =
        es ++ [Ev.progressEv 95, Ev.completeCall true,
               Ev.progressEv 100, Ev.stateEv UState.completed] :=
  (c9_progress_discipline (fun _ => true) (fun _ => true) true 1).2.1
    (by decide)

/-- C10 (cancel resets locally): cancelUpload leaves the component in the
idle state with progress 0, cleared chunk counters, ids and messages, for
every prior state and regardless of whether the server-side cancel call
succeeded or threw; a thrown server error is caught and changes nothing. -/
theorem c10_cancel_always_resets (r : Except String Unit)
    (s : UploaderState) :
    (cancelUpload r s).uploadState = UState.idle ∧
    (cancelUpload r s).progress = 0 ∧
    (cancelUpload r s).uploadedChunks = 0 ∧
    (cancelUpload r s).totalChunks = 0 ∧
    (cancelUpload r s).fileId = none ∧
    (cancelUpload r s).messages = [] ∧
    (∀ e : String,
      cancelUpload (Except.error e) s = cancelUpload (Except.ok ()) s) := by
  unfold cancelUpload
  cases h : s.fileId <;> cases r <;> simp [resetUploaderState]

/-- Witness for C10: a mid-upload state reset despite a failing server
cancel call. -/
theorem c10_cancel_always_resets_witness :
    (cancelUpload (Except.error "boom")
        ⟨UState.uploading, 45, 1, 2, some "f1", some "a.bin", 200,
          ["started"]⟩).uploadState = UState.idle :=
  (c10_cancel_always_resets (Except.error "boom")
      ⟨UState.uploading, 45, 1, 2, some "f1", some "a.bin", 200,
        ["started"]⟩).1

end SmartFileTransfer
